import Mathlib

/-!
Shallow embedding of the bounded recursive file-search core of
`src/mcp-backend/server.js` (methods `readFile`, `searchFilesAdvanced`,
`searchInLocation`, `searchRecursive`, `getContentPreview`, and the tool
dispatch `executeTool`), together with theorems settling the spec claims.

JavaScript strings are modelled as lists of characters (`Str`) so that all
string operations (`toLowerCase`, `trim`, `includes`, `split('\n')`,
`startsWith`, `path.extname`) are structurally recursive and evaluate inside
the kernel.  The file system visible to the walker is a finite tree `FS`;
`fs.readdir` of a directory is modelled by the directory's stored child list,
and a file's bytes are modelled by the two decodings `readFile` may attempt
(`utf8`, `latin1`), each `Option Str` (`none` = that decoding throws).
Filesystem paths are lists of path segments (`path.join dir name` appends a
segment; `path.resolve` is the identity on the abstract root).
-/

namespace MCPServer

/-- A JavaScript string, as a list of characters. -/
abbrev Str := List Char

/-- Model of `String.prototype.toLowerCase()` (character-wise lowering). -/
def jsToLower (s : Str) : Str := s.map Char.toLower

/-- Model of `String.prototype.trim()`: drop whitespace from both ends. -/
def jsTrim (s : Str) : Str :=
  ((s.dropWhile Char.isWhitespace).reverse.dropWhile Char.isWhitespace).reverse

/-- Model of `s.includes(q)`: `q` occurs as a contiguous substring of `s`. -/
def jsIncludes (s q : Str) : Bool :=
  match s with
  | [] => List.isPrefixOf q []
  | _ :: t => List.isPrefixOf q s || jsIncludes t q

/-- Model of `content.split('\n')`: split at every newline character. -/
def splitLines (s : Str) : List Str :=
  match s with
  | [] => [[]]
  | c :: rest =>
    if c = '\n' then [] :: splitLines rest
    else
      match splitLines rest with
      | [] => [[c]]
      | h :: t => (c :: h) :: t

/-- Helper for `extname`: the suffix of the name starting at its last dot
(`none` when the name has no dot). -/
def extnameAux : Str → Option Str
  | [] => none
  | c :: rest =>
    match extnameAux rest with
    | some e => some e
    | none => if c = '.' then some (c :: rest) else none

/-- Model of `path.extname(name)` on a bare file name: the part of the name
from its last dot on, where a dot in leading position does not count
(`extname ".bashrc" = ""`, `extname "a.b.c" = ".c"`, `extname "ab" = ""`). -/
def extname : Str → Str
  | [] => []
  | _ :: rest =>
    match extnameAux rest with
    | some e => e
    | none => []

/-- The skip test of `searchRecursive`:
`item.name.startsWith('.') || ['node_modules','vendor','venv','__pycache__'].includes(item.name)`. -/
def skipName (n : Str) : Bool :=
  List.isPrefixOf ['.'] n ||
    ["node_modules".toList, "vendor".toList, "venv".toList, "__pycache__".toList].contains n

/-- The bytes-plus-stat data of one file on disk: the result of attempting to
decode it as utf-8, the result of attempting latin1, and its stat metadata. -/
structure FileData where
  utf8 : Option Str
  latin1 : Option Str
  size : Nat
  modified : Nat
deriving DecidableEq

mutual
/-- One entry of a directory listing: a file with its data, or a
subdirectory with its own listing (the model of `fs.readdir`). -/
inductive FS where
  | file (name : Str) (data : FileData)
  | dir (name : Str) (children : FSList)
deriving DecidableEq

/-- A directory listing, in filesystem enumeration order. -/
inductive FSList where
  | nil
  | cons (hd : FS) (tl : FSList)
deriving DecidableEq
end

/-- The `item.name` of a directory entry. -/
def FS.name : FS → Str
  | .file n _ => n
  | .dir n _ => n

/-- Model of the method `readFile`: try utf-8 first; on failure fall back to
latin1; a file failing both decodings yields `none` (the `success:false`
branch, reported as unreadable). -/
def readFile (f : FileData) : Option Str :=
  match f.utf8 with
  | some content => some content
  | none => f.latin1

/-- One `{ line, number }` record of `getContentPreview` (the line already
trimmed, the number 1-based). -/
structure PreviewLine where
  line : Str
  number : Nat
deriving DecidableEq

/-- Model of `getContentPreview(content, query)`: split into lines, pair each
trimmed line with its 1-based number, keep those whose lowered text includes
the lowered query, and take the first 3. -/
def getContentPreview (content query : Str) : List PreviewLine :=
  let lines := splitLines content
  (((lines.enum.map (fun p => PreviewLine.mk (jsTrim p.2) (p.1 + 1))).filter
    (fun pl => jsIncludes (jsToLower pl.line) (jsToLower query))).take 3)

/-- The match test of `searchRecursive`:
`content.content.toLowerCase().includes(query.toLowerCase())`. -/
def contentMatches (content query : Str) : Bool :=
  jsIncludes (jsToLower content) (jsToLower query)

/-- One element of `results` pushed by `searchRecursive`:
`{ file, type, size, modified, preview }`, the file path as segments. -/
structure MatchRecord where
  file : List Str
  type : Str
  size : Nat
  modified : Nat
  preview : List PreviewLine
deriving DecidableEq

mutual
/-- Model of the body of `searchRecursive(dir, query, fileTypes, results,
currentDepth, maxDepth)` applied to the listing of `dir`: if
`currentDepth > maxDepth` nothing is produced, otherwise the entries are
processed in order and their results concatenated.  (The source checks the
depth once on entry and then loops; re-reading the check at each loop step is
the same function, since the depth does not change within the loop.) -/
def searchRecursive (query : Str) (fileTypes : List Str) (dirPath : List Str)
    (items : FSList) (currentDepth maxDepth : Nat) : List MatchRecord :=
  if currentDepth > maxDepth then []
  else
    match items with
    | .nil => []
    | .cons item rest =>
      searchEntry query fileTypes dirPath item currentDepth maxDepth ++
        searchRecursive query fileTypes dirPath rest currentDepth maxDepth

/-- The loop body of `searchRecursive` for one directory entry: skip hidden
and excluded names; recurse into subdirectories at depth + 1; for a file,
check the extension allow-list, read it, and on a content match push a
`MatchRecord` with preview. -/
def searchEntry (query : Str) (fileTypes : List Str) (dirPath : List Str)
    (item : FS) (currentDepth maxDepth : Nat) : List MatchRecord :=
  if skipName item.name then []
  else
    match item with
    | .dir n children =>
      searchRecursive query fileTypes (dirPath ++ [n]) children (currentDepth + 1) maxDepth
    | .file n data =>
      let ext := jsToLower (extname n)
      if fileTypes.contains ext then
        match readFile data with
        | some content =>
          if contentMatches content query then
            [{ file := dirPath ++ [n], type := ext, size := data.size,
               modified := data.modified,
               preview := getContentPreview content query }]
          else []
        | none => []
      else []
end

/-- A search root as handed to `searchInLocation`: its path (one abstract
segment) and, when the root directory exists and can be listed, its listing
(`none` models a root whose resolution/first `readdir` throws). -/
abbrev SearchRoot := Str × Option FSList

/-- Model of `searchInLocation(location, query, fileTypes)`: a root that
throws during setup contributes `[]` (the `catch` branch); otherwise the
recursive walk starts at depth 0 with `maxDepth = 3`. -/
def searchInLocation (loc : SearchRoot) (query : Str) (fileTypes : List Str) :
    List MatchRecord :=
  match loc.2 with
  | none => []
  | some children => searchRecursive query fileTypes [loc.1] children 0 3

/-- The value returned by `searchFilesAdvanced` on its success path. -/
structure SearchResult where
  success : Bool
  query : Str
  searchLocations : List Str
  totalResults : Nat
  results : List MatchRecord
deriving DecidableEq

/-- Model of `searchFilesAdvanced(query, locations, fileTypes)`: run
`searchInLocation` over the roots in order, concatenating their results;
report the full location list, the untruncated count, and the results
truncated to 50 (`results.slice(0, 50)`). -/
def searchFilesAdvanced (query : Str) (locations : List SearchRoot)
    (fileTypes : List Str) : SearchResult :=
  let results := locations.flatMap (fun loc => searchInLocation loc query fileTypes)
  { success := true
    query := query
    searchLocations := locations.map (fun loc => loc.1)
    totalResults := results.length
    results := results.take 50 }

/-- Arguments object passed to `executeTool` (the fields the handlers read). -/
structure ToolArgs where
  path : Str
  query : Str
  contactName : Str
  recipient : Str
  context : Str
  prompt : Str
deriving DecidableEq

/-- The handler invocation an `executeTool` call resolves to. -/
inductive ToolAction where
  | readFileAction (path : Str)
  | listDirectoryAction (path : Str)
  | searchFilesAdvancedAction (query : Str)
  | getSystemInfoAction
  | analyzeEmailPatternsAdvancedAction (contactName : Str)
  | searchOutlookEmailsAction (contactName : Str)
  | generateAIEmailAction (recipient : Str) (context : Str) (prompt : Str)
  | searchMacOSOutlookAction (contactName : Str)
  | unknownToolError (toolName : Str)
deriving DecidableEq

/-- The case list of the `switch (toolName)` in `executeTool`, in source
order, with each case's handler call; the name `search_outlook_emails`
occurs twice, the second time with the `process.platform === 'darwin'`
branch. -/
def toolCases (platform : Str) (args : ToolArgs) : List (Str × ToolAction) :=
  [ ("read_file".toList, .readFileAction args.path),
    ("list_directory".toList, .listDirectoryAction args.path),
    ("search_files_advanced".toList, .searchFilesAdvancedAction args.query),
    ("get_system_info".toList, .getSystemInfoAction),
    ("analyze_email_patterns_advanced".toList,
      .analyzeEmailPatternsAdvancedAction args.contactName),
    ("search_outlook_emails".toList, .searchOutlookEmailsAction args.contactName),
    ("generate_ai_email".toList,
      .generateAIEmailAction args.recipient args.context args.prompt),
    ("search_outlook_emails".toList,
      if platform = "darwin".toList then .searchMacOSOutlookAction args.contactName
      else .searchOutlookEmailsAction args.contactName) ]

/-- Model of `executeTool(toolName, args)`: a JavaScript `switch` in which
every case returns, so the first case label equal to `toolName` wins; no
match falls through to `default` (`throw new Error('Unknown tool: ...')`). -/
def executeTool (platform : Str) (toolName : Str) (args : ToolArgs) : ToolAction :=
  match (toolCases platform args).find? (fun c => c.1 == toolName) with
  | some c => c.2
  | none => .unknownToolError toolName

end MCPServer

namespace MCPServer

/-! Helper lemmas about the string model. -/

theorem jsIncludes_iff (s q : Str) : jsIncludes s q = true ↔ q <:+: s := by
  induction s with
  | nil =>
    simp [jsIncludes, List.isPrefixOf_iff_prefix, List.infix_nil, List.prefix_nil]
  | cons c t ih =>
    simp only [jsIncludes, Bool.or_eq_true, List.isPrefixOf_iff_prefix, ih,
      List.infix_cons_iff]

theorem jsIncludes_nil_right (s : Str) : jsIncludes s [] = true := by
  cases s <;> simp [jsIncludes, List.isPrefixOf_nil_left]

theorem pairwise_fst_lt_enumFrom {α : Type} (l : List α) (n : Nat) :
    (List.enumFrom n l).Pairwise (fun a b => a.1 < b.1) := by
  induction l generalizing n with
  | nil => simp
  | cons x xs ih =>
    refine List.Pairwise.cons ?_ (ih (n + 1))
    intro b hb
    obtain ⟨i, v⟩ := b
    have h := (List.mem_enumFrom hb).1
    simpa using Nat.lt_of_succ_le h

theorem get?_of_mem_enumFrom {α : Type} {l : List α} {n : Nat} {p : Nat × α}
    (hp : p ∈ List.enumFrom n l) : l.get? (p.1 - n) = some p.2 := by
  induction l generalizing n with
  | nil => simp at hp
  | cons x xs ih =>
    simp only [List.enumFrom, List.mem_cons] at hp
    rcases hp with rfl | hp
    · simp
    · have h1 := (List.mem_enumFrom hp).1
      have h2 := ih hp
      obtain ⟨i, v⟩ := p
      simp only at h1 h2 ⊢
      have hi : i - n = (i - (n + 1)) + 1 := by omega
      rw [hi]
      simpa using h2

/-! The master characterisation of what the walker can produce. -/

/-- Everything that holds of a `MatchRecord` produced by `searchRecursive`
called on a directory listing at path `dirPath` and depth `d` with bound `m`:
its path extends `dirPath` by some non-skipped directory segments `dirs` and a
non-skipped file `name`, the depth bound was respected, the file was decoded,
its content matched, and the record's fields come from that file. -/
def ResultOk (query : Str) (fileTypes : List Str) (dirPath : List Str)
    (d m : Nat) (x : MatchRecord) : Prop :=
  ∃ dirs name data content,
    x.file = dirPath ++ dirs ++ [name] ∧
    (∀ s ∈ dirs, skipName s = false) ∧
    skipName name = false ∧
    dirs.length + d ≤ m ∧
    readFile data = some content ∧
    x.type = jsToLower (extname name) ∧
    fileTypes.contains x.type = true ∧
    contentMatches content query = true ∧
    x.preview = getContentPreview content query ∧
    x.size = data.size ∧ x.modified = data.modified

mutual
theorem mem_searchRecursive (query : Str) (fileTypes : List Str)
    (dirPath : List Str) (items : FSList) (d m : Nat) (x : MatchRecord)
    (hx : x ∈ searchRecursive query fileTypes dirPath items d m) :
    ResultOk query fileTypes dirPath d m x := by
  rw [searchRecursive.eq_def] at hx
  by_cases hdm : d > m
  · rw [if_pos hdm] at hx
    exact absurd hx (List.not_mem_nil x)
  · rw [if_neg hdm] at hx
    cases items with
    | nil => exact absurd hx (List.not_mem_nil x)
    | cons item rest =>
      rcases List.mem_append.1 hx with h | h
      · exact mem_searchEntry query fileTypes dirPath item d m x
          (Nat.le_of_not_lt hdm) h
      · exact mem_searchRecursive query fileTypes dirPath rest d m x h

theorem mem_searchEntry (query : Str) (fileTypes : List Str)
    (dirPath : List Str) (item : FS) (d m : Nat) (x : MatchRecord)
    (hdm : d ≤ m) (hx : x ∈ searchEntry query fileTypes dirPath item d m) :
    ResultOk query fileTypes dirPath d m x := by
  rw [searchEntry.eq_def] at hx
  by_cases hskip : skipName item.name
  · rw [if_pos hskip] at hx
    exact absurd hx (List.not_mem_nil x)
  · rw [if_neg hskip] at hx
    cases item with
    | dir n children =>
      have hres := mem_searchRecursive query fileTypes (dirPath ++ [n])
        children (d + 1) m x hx
      obtain ⟨dirs, name, data, content, hfile, hdirs, hname, hdep, hrest⟩ := hres
      refine ⟨n :: dirs, name, data, content, ?_, ?_, hname, ?_, hrest⟩
      · simpa [List.append_assoc] using hfile
      · intro s hs
        rcases List.mem_cons.1 hs with rfl | hs
        · simpa [FS.name] using hskip
        · exact hdirs s hs
      · simp only [List.length_cons]
        omega
    | file n data =>
      simp only at hx
      by_cases hft : fileTypes.contains (jsToLower (extname n))
      · cases hread : readFile data with
        | none => simp [if_pos hft, hread] at hx
        | some content =>
          simp only [if_pos hft, hread] at hx
          by_cases hmatch : contentMatches content query
          · simp only [if_pos hmatch, List.mem_singleton] at hx
            subst hx
            exact ⟨[], n, data, content, by simp, by simp, by simpa [FS.name] using hskip,
              by simpa using hdm, hread, rfl, by simpa using hft, hmatch, rfl, rfl, rfl⟩
          · simp [if_neg hmatch] at hx
      · rw [if_neg hft] at hx
        exact absurd hx (List.not_mem_nil x)
end

end MCPServer

namespace MCPServer

/-- Any record in the `results` of `searchFilesAdvanced` came from the walk
of one of the supplied roots, which had to be listable. -/
theorem mem_results {query : Str} {locations : List SearchRoot}
    {fileTypes : List Str} {x : MatchRecord}
    (hx : x ∈ (searchFilesAdvanced query locations fileTypes).results) :
    ∃ loc ∈ locations, ∃ children, loc.2 = some children ∧
      x ∈ searchRecursive query fileTypes [loc.1] children 0 3 := by
  have h1 : x ∈ locations.flatMap (fun loc => searchInLocation loc query fileTypes) :=
    (List.take_sublist 50 _).subset hx
  obtain ⟨loc, hloc, hmem⟩ := List.mem_flatMap.1 h1
  cases h2 : loc.2 with
  | none => simp [searchInLocation, h2] at hmem
  | some children =>
    exact ⟨loc, hloc, children, h2, by simpa [searchInLocation, h2] using hmem⟩

/-- The 50-cap, shared by the theorems for several claims. -/
theorem results_length_le_fifty (query : Str) (locations : List SearchRoot)
    (fileTypes : List Str) :
    (searchFilesAdvanced query locations fileTypes).results.length ≤ 50 := by
  have h : (searchFilesAdvanced query locations fileTypes).results
      = (locations.flatMap (fun loc => searchInLocation loc query fileTypes)).take 50 := rfl
  rw [h, List.length_take]
  exact Nat.min_le_left _ _

end MCPServer

namespace MCPServer

/-! Concrete fixtures used by the witnesses below. -/

/-- A demo tree: `a.txt` = "hello world" at the root and `sub/b.md` =
"nothing relevant" one level down. -/
def demoTree : FSList :=
  .cons (.file "a.txt".toList ⟨some "hello world".toList, none, 11, 0⟩)
    (.cons (.dir "sub".toList
      (.cons (.file "b.md".toList ⟨some "nothing relevant".toList, none, 16, 0⟩) .nil)) .nil)

/-- The one record the demo search finds. -/
def demoMatch : MatchRecord :=
  { file := ["/data".toList, "a.txt".toList], type := ".txt".toList, size := 11,
    modified := 0, preview := [⟨"hello world".toList, 1⟩] }

/-- A demo tree containing a `node_modules` directory hiding a matching file. -/
def demoTreeExcl : FSList :=
  .cons (.dir "node_modules".toList
      (.cons (.file "secret.txt".toList ⟨some "hello world".toList, none, 11, 0⟩) .nil))
    (.cons (.file "a.txt".toList ⟨some "hello world".toList, none, 11, 0⟩) .nil)

/-- The record the excluded-directory demo search finds. -/
def demoMatchExcl : MatchRecord :=
  { file := ["/data".toList, "a.txt".toList], type := ".txt".toList, size := 11,
    modified := 0, preview := [⟨"hello world".toList, 1⟩] }

/-- C1: for every query, every list of roots and every file-type set, the
`results` of the `SearchResult` returned by `searchFilesAdvanced` contain at
most 50 records, however many files matched. -/
theorem claim1_results_capped_at_fifty (query : Str) (locations : List SearchRoot)
    (fileTypes : List Str) :
    (searchFilesAdvanced query locations fileTypes).results.length ≤ 50 :=
  results_length_le_fifty query locations fileTypes

/-- C2: every record returned by `searchFilesAdvanced` lies at most 3
directory levels below one of the supplied roots: its path is the root
segment, then at most 3 directory segments, then the file name. -/
theorem claim2_depth_bounded (query : Str) (locations : List SearchRoot)
    (fileTypes : List Str) (x : MatchRecord)
    (hx : x ∈ (searchFilesAdvanced query locations fileTypes).results) :
    ∃ root dirs name, x.file = root :: (dirs ++ [name]) ∧ dirs.length ≤ 3 ∧
      root ∈ locations.map (fun loc => loc.1) := by
  obtain ⟨loc, hloc, children, h2, hmem⟩ := mem_results hx
  obtain ⟨dirs, name, data, content, hfile, hdirs, hname, hdep, hrest⟩ :=
    mem_searchRecursive query fileTypes [loc.1] children 0 3 x hmem
  exact ⟨loc.1, dirs, name, by simpa using hfile, by omega,
    List.mem_map.2 ⟨loc, hloc, rfl⟩⟩

/-- Witness for C2 at the demo tree. -/
theorem claim2_depth_bounded_witness :
    demoMatch ∈ (searchFilesAdvanced "world".toList [("/data".toList, some demoTree)]
        [".txt".toList, ".md".toList]).results ∧
    ∃ root dirs name, demoMatch.file = root :: (dirs ++ [name]) ∧ dirs.length ≤ 3 ∧
      root ∈ [("/data".toList, some demoTree)].map (fun loc => loc.1) :=
  ⟨by decide, claim2_depth_bounded "world".toList [("/data".toList, some demoTree)]
    [".txt".toList, ".md".toList] demoMatch (by decide)⟩

/-- C4: no search result ever lies beneath a directory entry whose name is
skipped (hidden-marker dot or one of the fixed exclusions): for any non-empty
path `pre` below which such an entry `n` would sit, `pre ++ [n]` is never a
prefix of a result's path. -/
theorem claim4_excluded_dirs_never_searched (query : Str)
    (locations : List SearchRoot) (fileTypes : List Str) (x : MatchRecord)
    (hx : x ∈ (searchFilesAdvanced query locations fileTypes).results)
    (n : Str) (hn : skipName n = true) (pre : List Str) (hpre : pre ≠ []) :
    ¬ (pre ++ [n]) <+: x.file := by
  obtain ⟨loc, hloc, children, h2, hmem⟩ := mem_results hx
  obtain ⟨dirs, name, data, content, hfile, hdirs, hname, hdep, hrest⟩ :=
    mem_searchRecursive query fileTypes [loc.1] children 0 3 x hmem
  intro hprefix
  obtain ⟨t, ht⟩ := hprefix
  cases pre with
  | nil => exact hpre rfl
  | cons r pre' =>
    rw [hfile] at ht
    have htail : pre' ++ ([n] ++ t) = dirs ++ [name] := by
      have h := congrArg List.tail ht
      simpa using h
    have hmemn : n ∈ dirs ++ [name] := by
      rw [← htail]; simp
    rcases List.mem_append.1 hmemn with h | h
    · rw [hdirs n h] at hn
      exact Bool.false_ne_true hn
    · rcases List.mem_singleton.1 h with rfl
      rw [hname] at hn
      exact Bool.false_ne_true hn

/-- Witness for C4: the file inside `node_modules` is invisible even though
its content matches; the one result is not under `node_modules`. -/
theorem claim4_excluded_dirs_never_searched_witness :
    demoMatchExcl ∈ (searchFilesAdvanced "world".toList
        [("/data".toList, some demoTreeExcl)] [".txt".toList]).results ∧
    skipName "node_modules".toList = true ∧
    ¬ (["/data".toList] ++ ["node_modules".toList]) <+: demoMatchExcl.file :=
  ⟨by decide, by decide,
    claim4_excluded_dirs_never_searched "world".toList
      [("/data".toList, some demoTreeExcl)] [".txt".toList] demoMatchExcl
      (by decide) "node_modules".toList (by decide) ["/data".toList] (by decide)⟩

/-- C5: every record returned by `searchFilesAdvanced` carries as its `type`
the lower-cased extension (leading dot included) of its file name, and that
type is a member of the supplied file-type set; hence a file whose lower-cased
extension is not in the set never appears. -/
theorem claim5_extension_filter (query : Str) (locations : List SearchRoot)
    (fileTypes : List Str) (x : MatchRecord)
    (hx : x ∈ (searchFilesAdvanced query locations fileTypes).results) :
    fileTypes.contains x.type = true ∧
    ∃ name, x.file.getLast? = some name ∧ x.type = jsToLower (extname name) := by
  obtain ⟨loc, hloc, children, h2, hmem⟩ := mem_results hx
  obtain ⟨dirs, name, data, content, hfile, hdirs, hname, hdep, hread, htype,
    hcontains, hrest⟩ := mem_searchRecursive query fileTypes [loc.1] children 0 3 x hmem
  refine ⟨hcontains, name, ?_, htype⟩
  rw [hfile]
  exact List.getLast?_concat _

/-- Witness for C5 at the demo tree. -/
theorem claim5_extension_filter_witness :
    demoMatch ∈ (searchFilesAdvanced "world".toList [("/data".toList, some demoTree)]
        [".txt".toList, ".md".toList]).results ∧
    ([".txt".toList, ".md".toList].contains demoMatch.type = true ∧
      ∃ name, demoMatch.file.getLast? = some name ∧
        demoMatch.type = jsToLower (extname name)) :=
  ⟨by decide, claim5_extension_filter "world".toList [("/data".toList, some demoTree)]
    [".txt".toList, ".md".toList] demoMatch (by decide)⟩

end MCPServer

namespace MCPServer

/-- C3: the content matcher matches exactly when the lowered content contains
the lowered query as a substring (so a query differing only in case still
matches), and the preview consists of at most 3 records, in increasing line
order, each carrying a 1-based line number, the trimmed text of that line,
and a trimmed text that contains the query case-insensitively. -/
theorem claim3_content_matcher (content query : Str) :
    (contentMatches content query = true ↔
      jsToLower query <:+: jsToLower content) ∧
    (getContentPreview content query).length ≤ 3 ∧
    (getContentPreview content query).Pairwise (fun a b => a.number < b.number) ∧
    ∀ pl ∈ getContentPreview content query,
      jsIncludes (jsToLower pl.line) (jsToLower query) = true ∧
      1 ≤ pl.number ∧
      ∃ raw, (splitLines content).get? (pl.number - 1) = some raw ∧
        pl.line = jsTrim raw := by
  refine ⟨jsIncludes_iff _ _, ?_, ?_, ?_⟩
  · simp only [getContentPreview]
    exact le_trans (le_of_eq (List.length_take _ _)) (Nat.min_le_left _ _)
  · simp only [getContentPreview]
    refine List.Pairwise.sublist (List.take_sublist 3 _) ?_
    refine List.Pairwise.filter _ ?_
    exact List.Pairwise.map _ (fun a b hab => Nat.succ_lt_succ hab)
      (pairwise_fst_lt_enumFrom _ 0)
  · intro pl hpl
    simp only [getContentPreview] at hpl
    have hpl2 := (List.take_sublist 3 _).subset hpl
    obtain ⟨hmem, hinc⟩ := List.mem_filter.1 hpl2
    obtain ⟨pr, hpr, hf⟩ := List.mem_map.1 hmem
    refine ⟨hinc, ?_, pr.2, ?_, ?_⟩
    · rw [← hf]; exact Nat.le_add_left 1 pr.1
    · have hget := get?_of_mem_enumFrom (l := splitLines content) (n := 0) hpr
      rw [← hf]
      simpa using hget
    · rw [← hf]

/-- Witness for C3: the case-insensitive match scenario of the spec,
extracted through the theorem. -/
theorem claim3_content_matcher_witness :
    contentMatches "hello world".toList "WORLD".toList = true ∧
    (1 ≤ (1 : Nat) ∧
      ∃ raw, (splitLines "hello world".toList).get? 0 = some raw ∧
        jsTrim "hello world".toList = jsTrim raw) := by
  constructor
  · exact (claim3_content_matcher "hello world".toList "WORLD".toList).1.mpr (by decide)
  · have h := ((claim3_content_matcher "hello world".toList "WORLD".toList).2.2.2
      ⟨"hello world".toList, 1⟩ (by decide))
    exact ⟨h.2.1, by simpa using h.2.2⟩

/-- C6: a root that fails during setup is reported in `searchLocations`
exactly as supplied, contributes zero matches, does not abort the call
(`success` stays true), and the remaining roots are still searched: the
results and the count are those of the same search without the bad root. -/
theorem claim6_missing_root_skipped (query : Str) (fileTypes : List Str)
    (pre post : List SearchRoot) (name : Str) :
    (searchFilesAdvanced query (pre ++ (name, none) :: post) fileTypes).success = true ∧
    (searchFilesAdvanced query (pre ++ (name, none) :: post) fileTypes).searchLocations
      = (pre ++ (name, none) :: post).map (fun loc => loc.1) ∧
    searchInLocation (name, none) query fileTypes = [] ∧
    (searchFilesAdvanced query (pre ++ (name, none) :: post) fileTypes).results
      = (searchFilesAdvanced query (pre ++ post) fileTypes).results ∧
    (searchFilesAdvanced query (pre ++ (name, none) :: post) fileTypes).totalResults
      = (searchFilesAdvanced query (pre ++ post) fileTypes).totalResults := by
  refine ⟨rfl, rfl, rfl, ?_, ?_⟩ <;>
    simp [searchFilesAdvanced, List.flatMap_append, searchInLocation]

/-- C7: reading a file first attempts utf-8; only on utf-8 failure is latin1
attempted, with no third fallback; a file failing both is unreadable
(`none`, the `success:false` report), and the walker skips such a file while
continuing with the remaining entries. -/
theorem claim7_encoding_fallback (f : FileData) (query : Str)
    (fileTypes : List Str) (dirPath : List Str) (name : Str) (rest : FSList)
    (d m : Nat) :
    (∀ c, f.utf8 = some c → readFile f = some c) ∧
    (f.utf8 = none → readFile f = f.latin1) ∧
    (f.utf8 = none → f.latin1 = none → readFile f = none) ∧
    (readFile f = none →
      searchRecursive query fileTypes dirPath (.cons (.file name f) rest) d m
        = searchRecursive query fileTypes dirPath rest d m) := by
  refine ⟨?_, ?_, ?_, ?_⟩
  · intro c hc; simp [readFile, hc]
  · intro h; simp [readFile, h]
  · intro h1 h2; simp [readFile, h1, h2]
  · intro hread
    by_cases hdm : d > m
    · rw [searchRecursive.eq_def, if_pos hdm, searchRecursive.eq_def, if_pos hdm]
    · rw [searchRecursive.eq_def, if_neg hdm]
      have hentry : searchEntry query fileTypes dirPath (.file name f) d m = [] := by
        rw [searchEntry.eq_def]
        by_cases hskip : skipName (FS.file name f).name
        · rw [if_pos hskip]
        · rw [if_neg hskip]
          simp [hread]
      simp [hentry]

/-- Witness for C7: a file that decodes under neither encoding is skipped,
and the sibling file still matches. -/
theorem claim7_encoding_fallback_witness :
    readFile ⟨none, none, 5, 0⟩ = none ∧
    searchRecursive "world".toList [".txt".toList] ["/data".toList]
        (.cons (.file "bad.txt".toList ⟨none, none, 5, 0⟩) demoTree) 0 3
      = searchRecursive "world".toList [".txt".toList] ["/data".toList] demoTree 0 3 ∧
    searchRecursive "world".toList [".txt".toList] ["/data".toList] demoTree 0 3
      = [demoMatch] :=
  ⟨by decide,
    (claim7_encoding_fallback ⟨none, none, 5, 0⟩ "world".toList [".txt".toList]
      ["/data".toList] "bad.txt".toList demoTree 0 3).2.2.2 (by decide),
    by decide⟩

/-- C8: the search is a pure function of its arguments and the (immutable)
file tree, so two calls with identical arguments return identical
`SearchResult`s; in particular the set of returned records is the same. -/
theorem claim8_idempotent (query : Str) (locations : List SearchRoot)
    (fileTypes : List Str) :
    searchFilesAdvanced query locations fileTypes
      = searchFilesAdvanced query locations fileTypes ∧
    ∀ x : MatchRecord,
      x ∈ (searchFilesAdvanced query locations fileTypes).results ↔
        x ∈ (searchFilesAdvanced query locations fileTypes).results :=
  ⟨rfl, fun _ => Iff.rfl⟩

end MCPServer

namespace MCPServer

/-- C9: the dispatch table holds two cases named `search_outlook_emails`;
for every platform and arguments the call dispatches to the first handler
(`searchOutlookEmails`), and the second, platform-checking case (which would
call `searchMacOSOutlook` on darwin) is unreachable: no tool name ever
resolves to it. -/
theorem claim9_duplicate_dispatch_case (platform : Str) (args : ToolArgs) :
    executeTool platform "search_outlook_emails".toList args
      = ToolAction.searchOutlookEmailsAction args.contactName ∧
    ((toolCases platform args).filter
        (fun c => c.1 == "search_outlook_emails".toList)).length = 2 ∧
    ∀ toolName : Str, executeTool platform toolName args
      ≠ ToolAction.searchMacOSOutlookAction args.contactName := by
  refine ⟨rfl, rfl, ?_⟩
  intro toolName
  by_cases hb : toolName = "search_outlook_emails".toList
  · subst hb
    intro hcon
    exact ToolAction.noConfusion
      (show ToolAction.searchOutlookEmailsAction args.contactName
        = ToolAction.searchMacOSOutlookAction args.contactName from hcon)
  · rcases hfind : (toolCases platform args).find? (fun c => c.1 == toolName)
      with _ | c
    · intro hcon
      have h2 : ToolAction.unknownToolError toolName
          = ToolAction.searchMacOSOutlookAction args.contactName := by
        rw [← hcon]; simp [executeTool, hfind]
      exact ToolAction.noConfusion h2
    · have hc := List.find?_some hfind
      have hmem := List.mem_of_find?_eq_some hfind
      have hval : executeTool platform toolName args = c.2 := by
        simp [executeTool, hfind]
      rw [hval]
      simp only [toolCases, List.mem_cons, List.not_mem_nil, or_false] at hmem
      rcases hmem with rfl | rfl | rfl | rfl | rfl | rfl | rfl | rfl
      · simp
      · simp
      · simp
      · simp
      · simp
      · simp
      · simp
      · exact absurd (eq_of_beq hc).symm hb

end MCPServer

namespace MCPServer

/-- C10: the empty query matches every file content (every string contains
the empty string case-insensitively), its preview is the first up-to-3 lines
of the file (trimmed, 1-based), the walker reports every readable file with
an allowed, non-skipped name it reaches, and the overall result list is still
capped at 50. -/
theorem claim10_empty_query (content : Str) (fileTypes : List Str)
    (dirPath : List Str) (name : Str) (f : FileData) (rest : FSList)
    (d m : Nat)
    (hskip : skipName name = false)
    (hft : fileTypes.contains (jsToLower (extname name)) = true)
    (hread : readFile f = some content)
    (hdm : d ≤ m) :
    contentMatches content [] = true ∧
    getContentPreview content []
      = (((splitLines content).enum.map
          (fun p => PreviewLine.mk (jsTrim p.2) (p.1 + 1))).take 3) ∧
    searchRecursive [] fileTypes dirPath (.cons (.file name f) rest) d m
      = { file := dirPath ++ [name], type := jsToLower (extname name),
          size := f.size, modified := f.modified,
          preview := getContentPreview content [] }
        :: searchRecursive [] fileTypes dirPath rest d m ∧
    ∀ locations : List SearchRoot,
      (searchFilesAdvanced [] locations fileTypes).results.length ≤ 50 := by
  have hmatch : ∀ c : Str, contentMatches c [] = true := by
    intro c
    simpa [contentMatches, jsToLower] using jsIncludes_nil_right (jsToLower c)
  refine ⟨hmatch content, ?_, ?_, fun locations => results_length_le_fifty _ _ _⟩
  · simp only [getContentPreview]
    congr 1
    refine List.filter_eq_self.2 ?_
    intro pl _
    simpa [jsToLower] using jsIncludes_nil_right (jsToLower pl.line)
  · rw [searchRecursive.eq_def, if_neg (Nat.not_lt.2 hdm)]
    have hentry : searchEntry [] fileTypes dirPath (.file name f) d m
        = [{ file := dirPath ++ [name], type := jsToLower (extname name),
             size := f.size, modified := f.modified,
             preview := getContentPreview content [] }] := by
      rw [searchEntry.eq_def]
      rw [if_neg (by simpa [FS.name] using hskip)]
      simp only [hft, if_pos, hread, hmatch content, if_true]
    simp [hentry]

/-- Witness for C10 at a one-file tree. -/
theorem claim10_empty_query_witness :
    skipName "a.txt".toList = false ∧
    contentMatches "hello world".toList [] = true ∧
    searchRecursive [] [".txt".toList] ["/data".toList]
        (.cons (.file "a.txt".toList ⟨some "hello world".toList, none, 11, 0⟩) .nil) 0 3
      = [{ file := ["/data".toList, "a.txt".toList], type := ".txt".toList,
           size := 11, modified := 0,
           preview := [⟨"hello world".toList, 1⟩] }] := by
  have h := claim10_empty_query "hello world".toList [".txt".toList]
    ["/data".toList] "a.txt".toList ⟨some "hello world".toList, none, 11, 0⟩
    .nil 0 3 (by decide) (by decide) (by decide) (by decide)
  refine ⟨by decide, h.1, ?_⟩
  rw [h.2.2.1]
  decide

end MCPServer
